import Mathlib

/-!
Verification development for `etc/scan_jsonl_schema.py`: a scanner that
infers a structural schema from a corpus of decoded JSONL records.

The core (value classifier `type_name`, the per-record aggregation loop of
`main`, and the report construction with `sets_to_lists`) is embedded
shallowly below.  Decoded JSON values become the inductive type `JSON`;
Python `dict`s become association lists (decoded JSON objects have unique
keys; `dict.get` becomes first-match lookup); the `defaultdict`-of-`set`
accumulators become `Finset`s of key tuples.  In the Python source every
access to a `defaultdict` entry is immediately followed by a `.add` into
the innermost set (lines 107, 111, 117, 121, 123, 130, 132, 134, 136), so
a key is present at any level of the nested accumulators exactly when some
fully-nested element with that key prefix exists; the `Finset`-of-tuples
representation therefore captures key presence faithfully.
-/

namespace ScanJsonl

/-- A decoded JSON value, as produced by `json.loads`: `null`, `bool`,
`int`, a float (carrying its Python `repr` string, the only way the code
under scrutiny observes a float value other than its type), `str`, `list`,
or `dict` (an association list with the decoded key order). -/
inductive JSON where
  | null : JSON
  | bool (b : Bool) : JSON
  | int (n : Int) : JSON
  | float (r : String) : JSON
  | str (s : String) : JSON
  | arr (elems : List JSON) : JSON
  | obj (kvs : List (String × JSON)) : JSON

/-- `type_name` (lines 18–34): a concise type string for a decoded value.
The Python function checks `bool` before `int` because Python's `bool` is
a subtype of `int`; in this sum-type embedding the two are distinct
constructors and the final reflective fallback (line 34) is unreachable
for decoded JSON values, which is exactly the domain the scanner feeds it. -/
def type_name : JSON → String
  | .null => "null"
  | .bool _ => "bool"
  | .int _ => "int"
  | .float _ => "float"
  | .str _ => "string"
  | .arr _ => "array"
  | .obj _ => "object"

/-- Model of Python's `str()` on decoded JSON values, used at lines 105 and
128 when a `type` field is present but not a string: `str(None) = "None"`,
`str(True) = "True"`, numbers print themselves, and containers print
recursively with elements shown in `repr` form (strings quoted). -/
def pyRepr : JSON → String
  | .null => "None"
  | .bool true => "True"
  | .bool false => "False"
  | .int n => toString n
  | .float r => r
  | .str s => "'" ++ s ++ "'"
  | .arr xs => "[" ++ String.intercalate ", " (xs.attach.map fun x => pyRepr x.1) ++ "]"
  | .obj kvs =>
      "\x7b" ++
        String.intercalate ", "
          (kvs.attach.map fun kv => "'" ++ kv.1.1 ++ "': " ++ pyRepr kv.1.2) ++
      "\x7d"
termination_by v => sizeOf v
decreasing_by
  · have h := List.sizeOf_lt_of_mem x.2
    simp_wf
    omega
  · have h := List.sizeOf_lt_of_mem kv.2
    obtain ⟨⟨k, v⟩, hk⟩ := kv
    simp at h
    simp_wf
    omega

/-- Python `str(v)`: the identity on strings, `pyRepr` otherwise. -/
def pyStr : JSON → String
  | .str s => s
  | v => pyRepr v

/-- Python `dict.get(k)`: the value stored at key `k`, if any.  Decoded
JSON objects have unique keys, so first-match lookup is the dict lookup. -/
def dictGet : List (String × JSON) → String → Option JSON
  | [], _ => none
  | (k, v) :: kvs, key => if k = key then some v else dictGet kvs key

/-- Lines 103–105 (and identically 126–128): the Entry/Block Type of a
decoded object — `obj.get("type", "__no_type__")`, coerced through
`str()` when the stored value is not a string. -/
def entryTypeOf (kvs : List (String × JSON)) : String :=
  match dictGet kvs "type" with
  | none => "__no_type__"
  | some (.str s) => s
  | some v => pyStr v

/-- The in-memory aggregate (lines 62–76): the four nested
`defaultdict`-of-`set` accumulators flattened to sets of key tuples
(see the file comment for why this captures key presence), plus the
per-Entry-Type occurrence counter. -/
@[ext]
structure Agg where
  /-- `top_keys_by_type`: (entry type, field name, type label). -/
  top : Finset (String × String × String)
  /-- `message_keys_by_type`: (entry type, field name, type label). -/
  msgF : Finset (String × String × String)
  /-- `content_shape_by_type`: (entry type, shape). -/
  shape : Finset (String × String)
  /-- `content_block_fields`: (entry type, block type, field name, type label). -/
  block : Finset (String × String × String × String)
  /-- `type_occurrence_count`. -/
  occ : String → Nat

/-- The empty aggregate every scan starts from. -/
def Agg.empty : Agg := ⟨∅, ∅, ∅, ∅, fun _ => 0⟩

/-- Key-wise merge of two aggregates: set union on the four set-valued
accumulators, pointwise addition of the occurrence counters. -/
def Agg.merge (a b : Agg) : Agg :=
  ⟨a.top ∪ b.top, a.msgF ∪ b.msgF, a.shape ∪ b.shape, a.block ∪ b.block,
   fun t => a.occ t + b.occ t⟩

/-- Lines 124–134: the `(entry type, block type, field, label)` tuples one
element of a `message.content` array contributes.  A dict block is keyed by
its own `type` field (sentinel rule), a bare string goes under
`__plain_string__ / _value`, anything else under `__other__ / _value`. -/
def blockAdds (T : String) (block : JSON) : Finset (String × String × String × String) :=
  match block with
  | .obj bkvs =>
      (bkvs.map fun kv => (T, entryTypeOf bkvs, kv.1, type_name kv.2)).toFinset
  | .str _ => {(T, "__plain_string__", "_value", "string")}
  | b => {(T, "__other__", "_value", type_name b)}

/-- Lines 119–136: the `message.content` inspection.  A string or array
records that shape (an array additionally expanding each block into
`content_block_fields`); `JSON.null` — Python's `None`, covering both an
absent `content` key and a stored JSON `null` — falls through the
`elif content is not None` at line 135 and records nothing; any other
value records its `type_name` as the shape. -/
def contentStep (a : Agg) (T : String) (content : JSON) : Agg :=
  match content with
  | .str _ => { a with shape := a.shape ∪ {(T, "string")} }
  | .arr blocks =>
      { a with
        shape := a.shape ∪ {(T, "array")}
        block := blocks.foldl (fun s b => s ∪ blockAdds T b) a.block }
  | .null => a
  | c => { a with shape := a.shape ∪ {(T, type_name c)} }

/-- Lines 113–136: the `message` sub-object step.  When the `message`
value is a dict, record its fields' type labels, then hand
`msg.get("content")` — with absent-key and JSON-`null` both arriving as
`JSON.null`, Python's `None` — to `contentStep`.  Any non-dict (or
absent) `message` contributes nothing. -/
def messageStep (a : Agg) (T : String) (msg : Option JSON) : Agg :=
  match msg with
  | some (.obj mkvs) =>
      contentStep
        { a with
          msgF := a.msgF ∪ (mkvs.map fun kv => (T, kv.1, type_name kv.2)).toFinset }
        T ((dictGet mkvs "content").getD .null)
  | _ => a

/-- Lines 100–136: ingest one successfully decoded line into the
aggregate.  A non-dict value is a silent no-op (line 100).  For a dict:
determine the Entry Type (line 103), count the occurrence (line 107),
record every top-level field's type label (lines 110–111), then run the
`message` step on `obj.get("message")`. -/
def ingest (a : Agg) (record : JSON) : Agg :=
  match record with
  | .obj kvs =>
      messageStep
        { a with
          occ := fun t => if t = entryTypeOf kvs then a.occ t + 1 else a.occ t
          top := a.top ∪ (kvs.map fun kv => (entryTypeOf kvs, kv.1, type_name kv.2)).toFinset }
        (entryTypeOf kvs) (dictGet kvs "message")
  | _ => a

/-- Aggregating a whole corpus of decoded records, starting empty. -/
def aggregate (corpus : List JSON) : Agg := corpus.foldl ingest Agg.empty

/-- The per-Entry-Type section of the report (lines 163–173): the
occurrence count, the top-level field map, and — only when observed —
the message-field map, the sorted content shapes, and the content-block
map.  Field maps render as association lists in sorted key order with
sorted, deduplicated label lists, exactly what `sets_to_lists`
(lines 142–150) produces from the nested dict-of-sets. -/
structure EntryReport where
  occurrences : Nat
  top_level_fields : List (String × List String)
  message_fields : Option (List (String × List String))
  content_shapes : Option (List String)
  content_block_types : Option (List (String × List (String × List String)))
deriving DecidableEq

/-- The full report (lines 152–173), minus the three collaborator-owned
counters (`files_scanned`, `total_lines_parsed`, `parse_errors`), which
count raw lines and files before any record reaches the aggregator. -/
structure Report where
  unique_entry_types : List String
  entry_types : List (String × EntryReport)
deriving DecidableEq

/-- The sorted, deduplicated list of type labels recorded for one
(entry type, field) pair of a three-level accumulator. -/
def labelList (s : Finset (String × String × String)) (T k : String) : List String :=
  ((s.filter fun x => x.1 = T ∧ x.2.1 = k).image fun x => x.2.2).sort (· ≤ ·)

/-- `sets_to_lists` applied to one entry type's field-to-labels dict:
field names in sorted order, each with its sorted label list. -/
def fieldMap (s : Finset (String × String × String)) (T : String) :
    List (String × List String) :=
  (((s.filter fun x => x.1 = T).image fun x => x.2.1).sort (· ≤ ·)).map
    fun k => (k, labelList s T k)

/-- Labels for one (entry type, block type, field) triple of the
four-level `content_block_fields` accumulator. -/
def blockLabelList (s : Finset (String × String × String × String)) (T b k : String) :
    List String :=
  ((s.filter fun x => x.1 = T ∧ x.2.1 = b ∧ x.2.2.1 = k).image fun x => x.2.2.2).sort (· ≤ ·)

/-- One block type's field map inside `content_block_types`. -/
def blockFieldMap (s : Finset (String × String × String × String)) (T b : String) :
    List (String × List String) :=
  (((s.filter fun x => x.1 = T ∧ x.2.1 = b).image fun x => x.2.2.1).sort (· ≤ ·)).map
    fun k => (k, blockLabelList s T b k)

/-- `sets_to_lists` applied to one entry type's `content_block_fields`
dict: block type names in sorted order, each with its field map. -/
def blockMap (s : Finset (String × String × String × String)) (T : String) :
    List (String × List (String × List String)) :=
  (((s.filter fun x => x.1 = T).image fun x => x.2.1).sort (· ≤ ·)).map
    fun b => (b, blockFieldMap s T b)

/-- Lines 163–172: the report entry for one entry type.  The three
optional sections are emitted only when the entry type is a key of the
corresponding accumulator (`if etype in message_keys_by_type`, etc.). -/
def mkEntry (a : Agg) (T : String) : EntryReport :=
  { occurrences := a.occ T
    top_level_fields := fieldMap a.top T
    message_fields :=
      if T ∈ a.msgF.image (fun x => x.1) then some (fieldMap a.msgF T) else none
    content_shapes :=
      if T ∈ a.shape.image (fun x => x.1) then
        some (((a.shape.filter fun x => x.1 = T).image fun x => x.2).sort (· ≤ ·))
      else none
    content_block_types :=
      if T ∈ a.block.image (fun x => x.1) then some (blockMap a.block T) else none }

/-- Lines 152–173: the report built from a final aggregate.  Both the
`unique_entry_types` metadata list and the iteration order of the
per-entry-type sections are `sorted(top_keys_by_type.keys())`. -/
def buildReport (a : Agg) : Report :=
  { unique_entry_types := (a.top.image (fun x => x.1)).sort (· ≤ ·)
    entry_types :=
      ((a.top.image (fun x => x.1)).sort (· ≤ ·)).map fun T => (T, mkEntry a T) }

/-- JSON string quoting as `json.dumps` performs it (escaping of exotic
characters is irrelevant to the report's keys and labels). -/
def jstr (s : String) : String := "\"" ++ s ++ "\""

/-- Serialize a list of strings as a JSON array. -/
def serStrList (l : List String) : String :=
  "[" ++ String.intercalate ", " (l.map jstr) ++ "]"

/-- Serialize a field map as a JSON object in its stored (sorted) order. -/
def serFieldMap (fm : List (String × List String)) : String :=
  "\x7b" ++
    String.intercalate ", " (fm.map fun p => jstr p.1 ++ ": " ++ serStrList p.2) ++
  "\x7d"

/-- Serialize a block map as a JSON object in its stored (sorted) order. -/
def serBlockMap (bm : List (String × List (String × List String))) : String :=
  "\x7b" ++
    String.intercalate ", " (bm.map fun p => jstr p.1 ++ ": " ++ serFieldMap p.2) ++
  "\x7d"

/-- Serialize one entry report, fields in the insertion order of
lines 163–172, optional sections present only when recorded. -/
def serEntry (e : EntryReport) : String :=
  "\x7b" ++
    String.intercalate ", "
      (["\"occurrences\": " ++ toString e.occurrences,
        "\"top_level_fields\": " ++ serFieldMap e.top_level_fields] ++
       (match e.message_fields with
        | some fm => ["\"message_fields\": " ++ serFieldMap fm]
        | none => []) ++
       (match e.content_shapes with
        | some l => ["\"content_shapes\": " ++ serStrList l]
        | none => []) ++
       (match e.content_block_types with
        | some bm => ["\"content_block_types\": " ++ serBlockMap bm]
        | none => [])) ++
  "\x7d"

/-- Model of `json.dumps(report)` (line 175) restricted to the
aggregate-derived part: a pure function of the report value, emitting
dict keys in insertion order exactly as `json.dumps` does. -/
def serReport (r : Report) : String :=
  "\x7b\"_meta\": \x7b\"unique_entry_types\": " ++ serStrList r.unique_entry_types ++
  "\x7d, \"entry_types\": \x7b" ++
    String.intercalate ", " (r.entry_types.map fun p => jstr p.1 ++ ": " ++ serEntry p.2) ++
  "\x7d\x7d"

/-- The grouping key a decoded record is classified under: the Entry Type
for a dict, nothing for the silently skipped non-dict values. -/
def recordEntryType : JSON → Option String
  | .obj kvs => some (entryTypeOf kvs)
  | _ => none

/-- In any reachable aggregate, every key of the message-field, shape, or
block accumulators also keys the top-level field accumulator: a record
whose `message` value is a dict necessarily contains the key `"message"`,
so its entry type received a top-level field entry in the same step. -/
def KeysCovered (a : Agg) : Prop :=
  (∀ x ∈ a.msgF, ∃ y ∈ a.top, y.1 = x.1) ∧
  (∀ x ∈ a.shape, ∃ y ∈ a.top, y.1 = x.1) ∧
  (∀ x ∈ a.block, ∃ y ∈ a.top, y.1 = x.1)

/-- A report-level list that is emitted in lexicographically sorted order
with no duplicates. -/
def SortedNodup (l : List String) : Prop :=
  l.Sorted (· ≤ ·) ∧ l.Nodup

/-- A rendered field map: field names sorted and deduplicated, every
type-label list sorted and deduplicated. -/
def FieldMapSorted (fm : List (String × List String)) : Prop :=
  SortedNodup (fm.map fun p => p.1) ∧ ∀ p ∈ fm, SortedNodup p.2

/-- Every list inside one rendered entry-type section is sorted and
deduplicated. -/
def EntrySorted (e : EntryReport) : Prop :=
  FieldMapSorted e.top_level_fields ∧
  (∀ fm, e.message_fields = some fm → FieldMapSorted fm) ∧
  (∀ l, e.content_shapes = some l → SortedNodup l) ∧
  (∀ bm, e.content_block_types = some bm →
    SortedNodup (bm.map fun p => p.1) ∧ ∀ p ∈ bm, FieldMapSorted p.2)

/-- Every entry-type key, field name and block-type name of the report is
emitted in sorted order, and every type-label or shape set is rendered as
a sorted, deduplicated sequence. -/
def ReportSorted (r : Report) : Prop :=
  SortedNodup r.unique_entry_types ∧
  SortedNodup (r.entry_types.map fun p => p.1) ∧
  ∀ p ∈ r.entry_types, EntrySorted p.2

/-! Algebraic facts about `merge`, `ingest` and `aggregate`. -/

theorem foldl_union_eq {α : Type} [DecidableEq α] (f : JSON → Finset α)
    (l : List JSON) (s : Finset α) :
    l.foldl (fun t b => t ∪ f b) s = s ∪ l.foldl (fun t b => t ∪ f b) ∅ := by
  induction l generalizing s with
  | nil => simp
  | cons x xs ih =>
      simp only [List.foldl_cons]
      rw [ih (s ∪ f x), ih (∅ ∪ f x)]
      simp [Finset.union_assoc]

theorem merge_empty (a : Agg) : a.merge Agg.empty = a := by
  ext <;> simp [Agg.merge, Agg.empty]

theorem empty_merge (a : Agg) : Agg.empty.merge a = a := by
  ext <;> simp [Agg.merge, Agg.empty]

theorem merge_comm_thm (a b : Agg) : a.merge b = b.merge a := by
  ext <;> simp [Agg.merge, Finset.union_comm, Nat.add_comm]

theorem merge_assoc_thm (a b c : Agg) :
    (a.merge b).merge c = a.merge (b.merge c) := by
  ext <;> simp [Agg.merge, Finset.union_assoc, Nat.add_assoc]

theorem shapeAdd_merge (a b : Agg) (x : String × String) :
    { a.merge b with shape := (a.merge b).shape ∪ {x} }
      = a.merge { b with shape := b.shape ∪ {x} } := by
  refine Agg.ext ?_ ?_ ?_ ?_ ?_ <;> simp [Agg.merge, Finset.union_assoc]

theorem contentStep_merge (a b : Agg) (T : String) (c : JSON) :
    contentStep (a.merge b) T c = a.merge (contentStep b T c) := by
  cases c with
  | arr blocks =>
      refine Agg.ext ?_ ?_ ?_ ?_ ?_
      · simp [contentStep, Agg.merge]
      · simp [contentStep, Agg.merge]
      · simp [contentStep, Agg.merge, Finset.union_assoc]
      · simp only [contentStep, Agg.merge]
        rw [foldl_union_eq (blockAdds T) blocks (a.block ∪ b.block),
          foldl_union_eq (blockAdds T) blocks b.block]
        exact Finset.union_assoc a.block b.block _
      · simp [contentStep, Agg.merge]
  | null => rfl
  | str s => simp only [contentStep]; exact shapeAdd_merge a b _
  | bool b' => simp only [contentStep, type_name]; exact shapeAdd_merge a b _
  | int n => simp only [contentStep, type_name]; exact shapeAdd_merge a b _
  | float r => simp only [contentStep, type_name]; exact shapeAdd_merge a b _
  | obj kvs => simp only [contentStep, type_name]; exact shapeAdd_merge a b _

theorem messageStep_merge (a b : Agg) (T : String) (msg : Option JSON) :
    messageStep (a.merge b) T msg = a.merge (messageStep b T msg) := by
  cases msg with
  | none => rfl
  | some m =>
      cases m with
      | obj mkvs =>
          have h :
              { a.merge b with
                msgF := (a.merge b).msgF ∪
                  (mkvs.map fun kv => (T, kv.1, type_name kv.2)).toFinset }
              = a.merge
                { b with
                  msgF := b.msgF ∪
                    (mkvs.map fun kv => (T, kv.1, type_name kv.2)).toFinset } := by
            refine Agg.ext ?_ ?_ ?_ ?_ ?_ <;> simp [Agg.merge, Finset.union_assoc]
          simp only [messageStep, h, contentStep_merge]
      | null => rfl
      | bool b' => rfl
      | int n => rfl
      | float r => rfl
      | str s => rfl
      | arr l => rfl

theorem ingest_merge (a b : Agg) (j : JSON) :
    ingest (a.merge b) j = a.merge (ingest b j) := by
  cases j with
  | obj kvs =>
      have h :
          { a.merge b with
            occ := fun t =>
              if t = entryTypeOf kvs then (a.merge b).occ t + 1 else (a.merge b).occ t
            top := (a.merge b).top ∪
              (kvs.map fun kv => (entryTypeOf kvs, kv.1, type_name kv.2)).toFinset }
          = a.merge
            { b with
              occ := fun t => if t = entryTypeOf kvs then b.occ t + 1 else b.occ t
              top := b.top ∪
                (kvs.map fun kv => (entryTypeOf kvs, kv.1, type_name kv.2)).toFinset } := by
        refine Agg.ext ?_ ?_ ?_ ?_ ?_
        · simp [Agg.merge, Finset.union_assoc]
        · simp [Agg.merge]
        · simp [Agg.merge]
        · simp [Agg.merge]
        · funext t
          by_cases ht : t = entryTypeOf kvs <;> simp [Agg.merge, ht, Nat.add_assoc]
      simp only [ingest, h, messageStep_merge]
  | null => rfl
  | bool b' => rfl
  | int n => rfl
  | float r => rfl
  | str s => rfl
  | arr l => rfl

theorem ingest_as_merge (a : Agg) (j : JSON) :
    ingest a j = a.merge (ingest Agg.empty j) := by
  have h := ingest_merge a Agg.empty j
  rwa [merge_empty] at h

theorem foldl_ingest_merge (a b : Agg) (l : List JSON) :
    l.foldl ingest (a.merge b) = a.merge (l.foldl ingest b) := by
  induction l generalizing b with
  | nil => rfl
  | cons x xs ih => simp only [List.foldl_cons, ingest_merge, ih]

theorem aggregate_append (xs ys : List JSON) :
    aggregate (xs ++ ys) = (aggregate xs).merge (aggregate ys) := by
  unfold aggregate
  rw [List.foldl_append]
  calc List.foldl ingest (List.foldl ingest Agg.empty xs) ys
      = List.foldl ingest ((List.foldl ingest Agg.empty xs).merge Agg.empty) ys := by
        rw [merge_empty]
    _ = (List.foldl ingest Agg.empty xs).merge (List.foldl ingest Agg.empty ys) := by
        rw [foldl_ingest_merge]

theorem ingest_comm (a : Agg) (j k : JSON) :
    ingest (ingest a j) k = ingest (ingest a k) j := by
  rw [ingest_as_merge (ingest a j) k, ingest_as_merge a j,
    ingest_as_merge (ingest a k) j, ingest_as_merge a k,
    merge_assoc_thm, merge_assoc_thm,
    merge_comm_thm (ingest Agg.empty j) (ingest Agg.empty k)]

theorem foldl_ingest_perm (a : Agg) {c₁ c₂ : List JSON} (h : c₁.Perm c₂) :
    c₁.foldl ingest a = c₂.foldl ingest a := by
  induction h generalizing a with
  | nil => rfl
  | cons x _ ih => simp only [List.foldl_cons]; exact ih _
  | swap x y l => simp only [List.foldl_cons, ingest_comm]
  | trans _ _ ih₁ ih₂ => rw [ih₁, ih₂]

theorem aggregate_perm {c₁ c₂ : List JSON} (h : c₁.Perm c₂) :
    aggregate c₁ = aggregate c₂ :=
  foldl_ingest_perm Agg.empty h

/-! Projection lemmas: which components each step leaves untouched. -/

theorem contentStep_top (a : Agg) (T : String) (c : JSON) :
    (contentStep a T c).top = a.top := by
  cases c <;> rfl

theorem contentStep_msgF (a : Agg) (T : String) (c : JSON) :
    (contentStep a T c).msgF = a.msgF := by
  cases c <;> rfl

theorem contentStep_occ (a : Agg) (T : String) (c : JSON) :
    (contentStep a T c).occ = a.occ := by
  cases c <;> rfl

theorem messageStep_top (a : Agg) (T : String) (m : Option JSON) :
    (messageStep a T m).top = a.top := by
  cases m with
  | none => rfl
  | some v => cases v <;> simp [messageStep, contentStep_top]

theorem messageStep_occ (a : Agg) (T : String) (m : Option JSON) :
    (messageStep a T m).occ = a.occ := by
  cases m with
  | none => rfl
  | some v => cases v <;> simp [messageStep, contentStep_occ]

theorem ingest_obj_top (a : Agg) (kvs : List (String × JSON)) :
    (ingest a (JSON.obj kvs)).top
      = a.top ∪ (kvs.map fun kv => (entryTypeOf kvs, kv.1, type_name kv.2)).toFinset := by
  simp [ingest, messageStep_top]

theorem ingest_obj_occ (a : Agg) (kvs : List (String × JSON)) :
    (ingest a (JSON.obj kvs)).occ
      = fun t => if t = entryTypeOf kvs then a.occ t + 1 else a.occ t := by
  simp [ingest, messageStep_occ]

theorem ingest_top_subset (a : Agg) (j : JSON) : a.top ⊆ (ingest a j).top := by
  rw [ingest_as_merge]
  exact Finset.subset_union_left

theorem foldl_top_subset (a : Agg) (l : List JSON) :
    a.top ⊆ (l.foldl ingest a).top := by
  induction l generalizing a with
  | nil => exact Finset.Subset.refl _
  | cons x xs ih =>
      exact (ingest_top_subset a x).trans (ih (ingest a x))

/-- `dict.get` only returns values stored in the dict. -/
theorem dictGet_mem {kvs : List (String × JSON)} {k : String} {v : JSON}
    (h : dictGet kvs k = some v) : (k, v) ∈ kvs := by
  induction kvs with
  | nil => simp [dictGet] at h
  | cons kv rest ih =>
      rw [dictGet] at h
      by_cases hk : kv.1 = k
      · rw [if_pos hk] at h
        obtain ⟨k', v'⟩ := kv
        cases h
        subst hk
        exact List.mem_cons_self _ _
      · rw [if_neg hk] at h
        exact List.mem_cons_of_mem _ (ih h)

/-- Every element accumulated by the per-block loop either was already
there or is keyed by the enclosing entry type. -/
theorem mem_foldl_blockAdds {x : String × String × String × String} (T : String)
    (blocks : List JSON) (s₀ : Finset (String × String × String × String))
    (hx : x ∈ blocks.foldl (fun s b => s ∪ blockAdds T b) s₀) :
    x ∈ s₀ ∨ x.1 = T := by
  induction blocks generalizing s₀ with
  | nil => exact Or.inl hx
  | cons b bs ih =>
      rcases ih (s₀ ∪ blockAdds T b) hx with h | h
      · rcases Finset.mem_union.1 h with h' | h'
        · exact Or.inl h'
        · right
          cases b with
          | obj bkvs =>
              simp only [blockAdds, List.mem_toFinset, List.mem_map] at h'
              obtain ⟨kv, _, rfl⟩ := h'
              rfl
          | str s => simp only [blockAdds, Finset.mem_singleton] at h'; rw [h']
          | null => simp only [blockAdds, Finset.mem_singleton] at h'; rw [h']
          | bool b' => simp only [blockAdds, Finset.mem_singleton] at h'; rw [h']
          | int n => simp only [blockAdds, Finset.mem_singleton] at h'; rw [h']
          | float r => simp only [blockAdds, Finset.mem_singleton] at h'; rw [h']
          | arr l => simp only [blockAdds, Finset.mem_singleton] at h'; rw [h']
      · exact Or.inr h

theorem ingest_occ (a : Agg) (j : JSON) (T : String) :
    (ingest a j).occ T
      = a.occ T + (if recordEntryType j = some T then 1 else 0) := by
  cases j with
  | obj kvs =>
      rw [ingest_obj_occ]
      by_cases h : T = entryTypeOf kvs
      · subst h; simp [recordEntryType]
      · simp [recordEntryType, h, Ne.symm h]
  | null => simp [ingest, recordEntryType]
  | bool b' => simp [ingest, recordEntryType]
  | int n => simp [ingest, recordEntryType]
  | float r => simp [ingest, recordEntryType]
  | str s => simp [ingest, recordEntryType]
  | arr l => simp [ingest, recordEntryType]

theorem foldl_occ_countP (c : List JSON) (T : String) : ∀ a : Agg,
    (c.foldl ingest a).occ T
      = a.occ T + c.countP (fun j => recordEntryType j == some T) := by
  induction c with
  | nil => intro a; simp
  | cons x xs ih =>
      intro a
      simp only [List.foldl_cons, List.countP_cons]
      rw [ih (ingest a x), ingest_occ]
      by_cases h : recordEntryType x = some T
      · simp [h]; omega
      · simp [h]

/-- The occurrence counter equals the number of records classified under
the entry type, *including* records that are empty mappings. -/
theorem occ_eq_countP (c : List JSON) (T : String) :
    (aggregate c).occ T = c.countP (fun j => recordEntryType j == some T) := by
  have h := foldl_occ_countP c T Agg.empty
  simpa [aggregate, Agg.empty] using h

/-- One ingestion step keeps the three message-derived accumulators free
of a key `T` they were free of, provided the record does not pair entry
type `T` with a dict-valued `message`. -/
theorem ingest_sections_step (a : Agg) (j : JSON) (T : String)
    (hj : ∀ kvs mkvs, j = JSON.obj kvs →
      dictGet kvs "message" = some (JSON.obj mkvs) → entryTypeOf kvs ≠ T)
    (ha : (∀ x ∈ a.msgF, x.1 ≠ T) ∧ (∀ x ∈ a.shape, x.1 ≠ T) ∧
      (∀ x ∈ a.block, x.1 ≠ T)) :
    (∀ x ∈ (ingest a j).msgF, x.1 ≠ T) ∧ (∀ x ∈ (ingest a j).shape, x.1 ≠ T) ∧
      (∀ x ∈ (ingest a j).block, x.1 ≠ T) := by
  obtain ⟨haM, haS, haB⟩ := ha
  cases j with
  | obj kvs =>
      simp only [ingest]
      cases hm : dictGet kvs "message" with
      | none => exact ⟨haM, haS, haB⟩
      | some m =>
          cases m with
          | obj mkvs =>
              have hT : entryTypeOf kvs ≠ T := hj kvs mkvs rfl hm
              simp only [messageStep]
              have hM : ∀ x ∈ a.msgF ∪
                  (mkvs.map fun kv =>
                    (entryTypeOf kvs, kv.1, type_name kv.2)).toFinset, x.1 ≠ T := by
                intro x hx
                rcases Finset.mem_union.1 hx with h' | h'
                · exact haM x h'
                · simp only [List.mem_toFinset, List.mem_map] at h'
                  obtain ⟨kv, _, rfl⟩ := h'
                  exact hT
              cases hc : (dictGet mkvs "content").getD JSON.null with
              | str s =>
                  refine ⟨hM, ?_, haB⟩
                  intro x hx
                  rcases Finset.mem_union.1 hx with h' | h'
                  · exact haS x h'
                  · rw [Finset.mem_singleton.1 h']; exact hT
              | arr blocks =>
                  refine ⟨hM, ?_, ?_⟩
                  · intro x hx
                    rcases Finset.mem_union.1 hx with h' | h'
                    · exact haS x h'
                    · rw [Finset.mem_singleton.1 h']; exact hT
                  · intro x hx
                    rcases mem_foldl_blockAdds (entryTypeOf kvs) blocks _ hx with h' | h'
                    · exact haB x h'
                    · rw [h']; exact hT
              | null => exact ⟨hM, haS, haB⟩
              | bool b' =>
                  refine ⟨hM, ?_, haB⟩
                  intro x hx
                  rcases Finset.mem_union.1 hx with h' | h'
                  · exact haS x h'
                  · rw [Finset.mem_singleton.1 h']; exact hT
              | int n =>
                  refine ⟨hM, ?_, haB⟩
                  intro x hx
                  rcases Finset.mem_union.1 hx with h' | h'
                  · exact haS x h'
                  · rw [Finset.mem_singleton.1 h']; exact hT
              | float r =>
                  refine ⟨hM, ?_, haB⟩
                  intro x hx
                  rcases Finset.mem_union.1 hx with h' | h'
                  · exact haS x h'
                  · rw [Finset.mem_singleton.1 h']; exact hT
              | obj okvs =>
                  refine ⟨hM, ?_, haB⟩
                  intro x hx
                  rcases Finset.mem_union.1 hx with h' | h'
                  · exact haS x h'
                  · rw [Finset.mem_singleton.1 h']; exact hT
          | null => exact ⟨haM, haS, haB⟩
          | bool b' => exact ⟨haM, haS, haB⟩
          | int n => exact ⟨haM, haS, haB⟩
          | float r => exact ⟨haM, haS, haB⟩
          | str s => exact ⟨haM, haS, haB⟩
          | arr l => exact ⟨haM, haS, haB⟩
  | null => exact ⟨haM, haS, haB⟩
  | bool b' => exact ⟨haM, haS, haB⟩
  | int n => exact ⟨haM, haS, haB⟩
  | float r => exact ⟨haM, haS, haB⟩
  | str s => exact ⟨haM, haS, haB⟩
  | arr l => exact ⟨haM, haS, haB⟩

theorem no_msg_sections_foldl (T : String) (c : List JSON) : ∀ a : Agg,
    ((∀ x ∈ a.msgF, x.1 ≠ T) ∧ (∀ x ∈ a.shape, x.1 ≠ T) ∧
      (∀ x ∈ a.block, x.1 ≠ T)) →
    (∀ j ∈ c, ∀ kvs mkvs, j = JSON.obj kvs →
      dictGet kvs "message" = some (JSON.obj mkvs) → entryTypeOf kvs ≠ T) →
    (∀ x ∈ (c.foldl ingest a).msgF, x.1 ≠ T) ∧
      (∀ x ∈ (c.foldl ingest a).shape, x.1 ≠ T) ∧
      (∀ x ∈ (c.foldl ingest a).block, x.1 ≠ T) := by
  induction c with
  | nil => intro a ha _; exact ha
  | cons x xs ih =>
      intro a ha hc
      simp only [List.foldl_cons]
      refine ih (ingest a x) ?_ ?_
      · exact ingest_sections_step a x T (hc x (List.mem_cons_self _ _)) ha
      · intro j hj
        exact hc j (List.mem_cons_of_mem _ hj)

theorem aggregate_no_msg_sections (c : List JSON) (T : String)
    (h : ∀ j ∈ c, ∀ kvs mkvs, j = JSON.obj kvs →
      dictGet kvs "message" = some (JSON.obj mkvs) → entryTypeOf kvs ≠ T) :
    (∀ x ∈ (aggregate c).msgF, x.1 ≠ T) ∧ (∀ x ∈ (aggregate c).shape, x.1 ≠ T) ∧
      (∀ x ∈ (aggregate c).block, x.1 ≠ T) := by
  unfold aggregate
  refine no_msg_sections_foldl T c Agg.empty ⟨?_, ?_, ?_⟩ h <;> simp [Agg.empty]

theorem keysCovered_ingest (a : Agg) (j : JSON) (h : KeysCovered a) :
    KeysCovered (ingest a j) := by
  obtain ⟨hM, hS, hB⟩ := h
  cases j with
  | obj kvs =>
      simp only [ingest]
      cases hm : dictGet kvs "message" with
      | none =>
          refine ⟨?_, ?_, ?_⟩ <;> intro x hx
          · obtain ⟨y, hy, hy1⟩ := hM x hx
            exact ⟨y, Finset.mem_union_left _ hy, hy1⟩
          · obtain ⟨y, hy, hy1⟩ := hS x hx
            exact ⟨y, Finset.mem_union_left _ hy, hy1⟩
          · obtain ⟨y, hy, hy1⟩ := hB x hx
            exact ⟨y, Finset.mem_union_left _ hy, hy1⟩
      | some m =>
          cases m with
          | obj mkvs =>
              have hmem : ("message", JSON.obj mkvs) ∈ kvs := dictGet_mem hm
              have hnewtop : (entryTypeOf kvs, "message", "object") ∈
                  a.top ∪ (kvs.map fun kv =>
                    (entryTypeOf kvs, kv.1, type_name kv.2)).toFinset := by
                refine Finset.mem_union_right _ ?_
                simp only [List.mem_toFinset, List.mem_map]
                exact ⟨("message", JSON.obj mkvs), hmem, rfl⟩
              simp only [messageStep]
              have goalM : ∀ x ∈ a.msgF ∪ (mkvs.map fun kv =>
                  (entryTypeOf kvs, kv.1, type_name kv.2)).toFinset,
                  ∃ y ∈ a.top ∪ (kvs.map fun kv =>
                    (entryTypeOf kvs, kv.1, type_name kv.2)).toFinset, y.1 = x.1 := by
                intro x hx
                rcases Finset.mem_union.1 hx with h' | h'
                · obtain ⟨y, hy, hy1⟩ := hM x h'
                  exact ⟨y, Finset.mem_union_left _ hy, hy1⟩
                · simp only [List.mem_toFinset, List.mem_map] at h'
                  obtain ⟨kv, _, rfl⟩ := h'
                  exact ⟨(entryTypeOf kvs, "message", "object"), hnewtop, rfl⟩
              have goalS : ∀ x : String × String, x ∈ a.shape ∨ x.1 = entryTypeOf kvs →
                  ∃ y ∈ a.top ∪ (kvs.map fun kv =>
                    (entryTypeOf kvs, kv.1, type_name kv.2)).toFinset, y.1 = x.1 := by
                intro x hx
                rcases hx with h' | h'
                · obtain ⟨y, hy, hy1⟩ := hS x h'
                  exact ⟨y, Finset.mem_union_left _ hy, hy1⟩
                · exact ⟨(entryTypeOf kvs, "message", "object"), hnewtop, by rw [h']⟩
              have goalB : ∀ x : String × String × String × String,
                  x ∈ a.block ∨ x.1 = entryTypeOf kvs →
                  ∃ y ∈ a.top ∪ (kvs.map fun kv =>
                    (entryTypeOf kvs, kv.1, type_name kv.2)).toFinset, y.1 = x.1 := by
                intro x hx
                rcases hx with h' | h'
                · obtain ⟨y, hy, hy1⟩ := hB x h'
                  exact ⟨y, Finset.mem_union_left _ hy, hy1⟩
                · exact ⟨(entryTypeOf kvs, "message", "object"), hnewtop, by rw [h']⟩
              cases hc : (dictGet mkvs "content").getD JSON.null with
              | str s =>
                  refine ⟨goalM, ?_, ?_⟩ <;> intro x hx
                  · rcases Finset.mem_union.1 hx with h' | h'
                    · exact goalS x (Or.inl h')
                    · exact goalS x (Or.inr (by
                        rw [Finset.mem_singleton.1 h']))
                  · exact goalB x (Or.inl hx)
              | arr blocks =>
                  refine ⟨goalM, ?_, ?_⟩ <;> intro x hx
                  · rcases Finset.mem_union.1 hx with h' | h'
                    · exact goalS x (Or.inl h')
                    · exact goalS x (Or.inr (by
                        rw [Finset.mem_singleton.1 h']))
                  · rcases mem_foldl_blockAdds (entryTypeOf kvs) blocks _ hx with h' | h'
                    · exact goalB x (Or.inl h')
                    · exact goalB x (Or.inr h')
              | null => exact ⟨goalM, fun x hx => goalS x (Or.inl hx),
                  fun x hx => goalB x (Or.inl hx)⟩
              | bool b' =>
                  refine ⟨goalM, ?_, ?_⟩ <;> intro x hx
                  · rcases Finset.mem_union.1 hx with h' | h'
                    · exact goalS x (Or.inl h')
                    · exact goalS x (Or.inr (by
                        rw [Finset.mem_singleton.1 h']))
                  · exact goalB x (Or.inl hx)
              | int n =>
                  refine ⟨goalM, ?_, ?_⟩ <;> intro x hx
                  · rcases Finset.mem_union.1 hx with h' | h'
                    · exact goalS x (Or.inl h')
                    · exact goalS x (Or.inr (by
                        rw [Finset.mem_singleton.1 h']))
                  · exact goalB x (Or.inl hx)
              | float r =>
                  refine ⟨goalM, ?_, ?_⟩ <;> intro x hx
                  · rcases Finset.mem_union.1 hx with h' | h'
                    · exact goalS x (Or.inl h')
                    · exact goalS x (Or.inr (by
                        rw [Finset.mem_singleton.1 h']))
                  · exact goalB x (Or.inl hx)
              | obj okvs =>
                  refine ⟨goalM, ?_, ?_⟩ <;> intro x hx
                  · rcases Finset.mem_union.1 hx with h' | h'
                    · exact goalS x (Or.inl h')
                    · exact goalS x (Or.inr (by
                        rw [Finset.mem_singleton.1 h']))
                  · exact goalB x (Or.inl hx)
          | null =>
              refine ⟨?_, ?_, ?_⟩ <;> intro x hx
              · obtain ⟨y, hy, hy1⟩ := hM x hx
                exact ⟨y, Finset.mem_union_left _ hy, hy1⟩
              · obtain ⟨y, hy, hy1⟩ := hS x hx
                exact ⟨y, Finset.mem_union_left _ hy, hy1⟩
              · obtain ⟨y, hy, hy1⟩ := hB x hx
                exact ⟨y, Finset.mem_union_left _ hy, hy1⟩
          | bool b' =>
              refine ⟨?_, ?_, ?_⟩ <;> intro x hx
              · obtain ⟨y, hy, hy1⟩ := hM x hx
                exact ⟨y, Finset.mem_union_left _ hy, hy1⟩
              · obtain ⟨y, hy, hy1⟩ := hS x hx
                exact ⟨y, Finset.mem_union_left _ hy, hy1⟩
              · obtain ⟨y, hy, hy1⟩ := hB x hx
                exact ⟨y, Finset.mem_union_left _ hy, hy1⟩
          | int n =>
              refine ⟨?_, ?_, ?_⟩ <;> intro x hx
              · obtain ⟨y, hy, hy1⟩ := hM x hx
                exact ⟨y, Finset.mem_union_left _ hy, hy1⟩
              · obtain ⟨y, hy, hy1⟩ := hS x hx
                exact ⟨y, Finset.mem_union_left _ hy, hy1⟩
              · obtain ⟨y, hy, hy1⟩ := hB x hx
                exact ⟨y, Finset.mem_union_left _ hy, hy1⟩
          | float r =>
              refine ⟨?_, ?_, ?_⟩ <;> intro x hx
              · obtain ⟨y, hy, hy1⟩ := hM x hx
                exact ⟨y, Finset.mem_union_left _ hy, hy1⟩
              · obtain ⟨y, hy, hy1⟩ := hS x hx
                exact ⟨y, Finset.mem_union_left _ hy, hy1⟩
              · obtain ⟨y, hy, hy1⟩ := hB x hx
                exact ⟨y, Finset.mem_union_left _ hy, hy1⟩
          | str s =>
              refine ⟨?_, ?_, ?_⟩ <;> intro x hx
              · obtain ⟨y, hy, hy1⟩ := hM x hx
                exact ⟨y, Finset.mem_union_left _ hy, hy1⟩
              · obtain ⟨y, hy, hy1⟩ := hS x hx
                exact ⟨y, Finset.mem_union_left _ hy, hy1⟩
              · obtain ⟨y, hy, hy1⟩ := hB x hx
                exact ⟨y, Finset.mem_union_left _ hy, hy1⟩
          | arr l =>
              refine ⟨?_, ?_, ?_⟩ <;> intro x hx
              · obtain ⟨y, hy, hy1⟩ := hM x hx
                exact ⟨y, Finset.mem_union_left _ hy, hy1⟩
              · obtain ⟨y, hy, hy1⟩ := hS x hx
                exact ⟨y, Finset.mem_union_left _ hy, hy1⟩
              · obtain ⟨y, hy, hy1⟩ := hB x hx
                exact ⟨y, Finset.mem_union_left _ hy, hy1⟩
  | null => exact ⟨hM, hS, hB⟩
  | bool b' => exact ⟨hM, hS, hB⟩
  | int n => exact ⟨hM, hS, hB⟩
  | float r => exact ⟨hM, hS, hB⟩
  | str s => exact ⟨hM, hS, hB⟩
  | arr l => exact ⟨hM, hS, hB⟩

theorem keysCovered_aggregate (c : List JSON) : KeysCovered (aggregate c) := by
  unfold aggregate
  have main : ∀ a : Agg, KeysCovered a → KeysCovered (c.foldl ingest a) := by
    induction c with
    | nil => intro a ha; exact ha
    | cons x xs ih =>
        intro a ha
        exact ih (ingest a x) (keysCovered_ingest a x ha)
  refine main Agg.empty ⟨?_, ?_, ?_⟩ <;> simp [Agg.empty, KeysCovered]

/-! Facts about the sorted rendering. -/

theorem sortedNodup_sort (s : Finset String) : SortedNodup (s.sort (· ≤ ·)) :=
  ⟨Finset.sort_sorted _ _, Finset.sort_nodup _ _⟩

theorem map_fst_pair {β : Type} (f : String → β) (l : List String) :
    (l.map fun k => (k, f k)).map (fun p => p.1) = l := by
  induction l with
  | nil => rfl
  | cons x xs ih => simp only [List.map_cons, ih]

theorem fieldMap_fst (s : Finset (String × String × String)) (T : String) :
    (fieldMap s T).map (fun p => p.1)
      = ((s.filter fun x => x.1 = T).image fun x => x.2.1).sort (· ≤ ·) := by
  unfold fieldMap
  exact map_fst_pair _ _

theorem blockFieldMap_fst (s : Finset (String × String × String × String)) (T b : String) :
    (blockFieldMap s T b).map (fun p => p.1)
      = ((s.filter fun x => x.1 = T ∧ x.2.1 = b).image fun x => x.2.2.1).sort (· ≤ ·) := by
  unfold blockFieldMap
  exact map_fst_pair _ _

theorem blockMap_fst (s : Finset (String × String × String × String)) (T : String) :
    (blockMap s T).map (fun p => p.1)
      = ((s.filter fun x => x.1 = T).image fun x => x.2.1).sort (· ≤ ·) := by
  unfold blockMap
  exact map_fst_pair _ _

theorem buildReport_keys (a : Agg) :
    (buildReport a).entry_types.map (fun p => p.1)
      = (a.top.image fun x => x.1).sort (· ≤ ·) := by
  unfold buildReport
  exact map_fst_pair _ _

theorem mkEntry_msg_pos (a : Agg) (T : String) (h : T ∈ a.msgF.image (fun x => x.1)) :
    (mkEntry a T).message_fields = some (fieldMap a.msgF T) := by
  simp [mkEntry, h]

theorem mkEntry_msg_neg (a : Agg) (T : String) (h : T ∉ a.msgF.image (fun x => x.1)) :
    (mkEntry a T).message_fields = none := by
  simp [mkEntry, h]

theorem mkEntry_shape_pos (a : Agg) (T : String) (h : T ∈ a.shape.image (fun x => x.1)) :
    (mkEntry a T).content_shapes
      = some (((a.shape.filter fun x => x.1 = T).image fun x => x.2).sort (· ≤ ·)) := by
  simp [mkEntry, h]

theorem mkEntry_shape_neg (a : Agg) (T : String) (h : T ∉ a.shape.image (fun x => x.1)) :
    (mkEntry a T).content_shapes = none := by
  simp [mkEntry, h]

theorem mkEntry_block_pos (a : Agg) (T : String) (h : T ∈ a.block.image (fun x => x.1)) :
    (mkEntry a T).content_block_types = some (blockMap a.block T) := by
  simp [mkEntry, h]

theorem mkEntry_block_neg (a : Agg) (T : String) (h : T ∉ a.block.image (fun x => x.1)) :
    (mkEntry a T).content_block_types = none := by
  simp [mkEntry, h]

theorem fieldMap_sorted (s : Finset (String × String × String)) (T : String) :
    FieldMapSorted (fieldMap s T) := by
  constructor
  · rw [fieldMap_fst]; exact sortedNodup_sort _
  · intro p hp
    unfold fieldMap at hp
    obtain ⟨k, _, rfl⟩ := List.mem_map.1 hp
    exact sortedNodup_sort _

theorem blockFieldMap_sorted (s : Finset (String × String × String × String))
    (T b : String) : FieldMapSorted (blockFieldMap s T b) := by
  constructor
  · rw [blockFieldMap_fst]; exact sortedNodup_sort _
  · intro p hp
    unfold blockFieldMap at hp
    obtain ⟨k, _, rfl⟩ := List.mem_map.1 hp
    exact sortedNodup_sort _

theorem mkEntry_sorted (a : Agg) (T : String) : EntrySorted (mkEntry a T) := by
  refine ⟨fieldMap_sorted a.top T, ?_, ?_, ?_⟩
  · intro fm hfm
    by_cases h : T ∈ a.msgF.image (fun x => x.1)
    · rw [mkEntry_msg_pos a T h] at hfm
      cases hfm
      exact fieldMap_sorted a.msgF T
    · rw [mkEntry_msg_neg a T h] at hfm
      cases hfm
  · intro l hl
    by_cases h : T ∈ a.shape.image (fun x => x.1)
    · rw [mkEntry_shape_pos a T h] at hl
      cases hl
      exact sortedNodup_sort _
    · rw [mkEntry_shape_neg a T h] at hl
      cases hl
  · intro bm hbm
    by_cases h : T ∈ a.block.image (fun x => x.1)
    · rw [mkEntry_block_pos a T h] at hbm
      cases hbm
      constructor
      · rw [blockMap_fst]; exact sortedNodup_sort _
      · intro p hp
        unfold blockMap at hp
        obtain ⟨b, _, rfl⟩ := List.mem_map.1 hp
        exact blockFieldMap_sorted a.block T b
    · rw [mkEntry_block_neg a T h] at hbm
      cases hbm

theorem mem_entry_types {a : Agg} {T : String} {e : EntryReport}
    (h : (T, e) ∈ (buildReport a).entry_types) :
    T ∈ a.top.image (fun x => x.1) ∧ e = mkEntry a T := by
  unfold buildReport at h
  simp only [List.mem_map] at h
  obtain ⟨T', hT', heq⟩ := h
  cases heq
  exact ⟨(Finset.mem_sort _).1 hT', rfl⟩

theorem entry_types_mem (a : Agg) (T : String)
    (h : T ∈ a.top.image (fun x => x.1)) :
    (T, mkEntry a T) ∈ (buildReport a).entry_types := by
  unfold buildReport
  simp only [List.mem_map]
  exact ⟨T, (Finset.mem_sort _).2 h, rfl⟩

theorem sort_ne_nil_of_mem {s : Finset String} {T : String} (h : T ∈ s) :
    s.sort (· ≤ ·) ≠ [] := by
  intro hnil
  have hm := (Finset.mem_sort (α := String) (· ≤ ·)).2 h
  rw [hnil] at hm
  exact absurd hm (List.not_mem_nil T)

theorem top_key_of_record {c : List JSON} {kvs : List (String × JSON)}
    (hmem : JSON.obj kvs ∈ c) (hne : kvs ≠ []) :
    entryTypeOf kvs ∈ (aggregate c).top.image (fun x => x.1) := by
  obtain ⟨s, t, rfl⟩ := List.append_of_mem hmem
  unfold aggregate
  rw [List.foldl_append]
  simp only [List.foldl_cons]
  obtain ⟨⟨k, v⟩, rest, rfl⟩ : ∃ kv rest, kvs = kv :: rest := by
    cases kvs with
    | nil => exact absurd rfl hne
    | cons kv rest => exact ⟨kv, rest, rfl⟩
  have hx : (entryTypeOf ((k, v) :: rest), k, type_name v) ∈
      (ingest (List.foldl ingest Agg.empty s) (JSON.obj ((k, v) :: rest))).top := by
    rw [ingest_obj_top]
    refine Finset.mem_union_right _ ?_
    simp only [List.mem_toFinset, List.mem_map]
    exact ⟨(k, v), List.mem_cons_self _ _, rfl⟩
  have hx2 := foldl_top_subset _ t hx
  exact Finset.mem_image.2 ⟨_, hx2, rfl⟩

theorem fieldMap_ne_nil {s : Finset (String × String × String)} {T : String}
    (h : T ∈ s.image (fun x => x.1)) : fieldMap s T ≠ [] := by
  obtain ⟨x, hx, hx1⟩ := Finset.mem_image.1 h
  unfold fieldMap
  intro hnil
  rw [List.map_eq_nil_iff] at hnil
  exact sort_ne_nil_of_mem
    (Finset.mem_image.2 ⟨x, Finset.mem_filter.2 ⟨hx, hx1⟩, rfl⟩) hnil

theorem blockMap_ne_nil {s : Finset (String × String × String × String)} {T : String}
    (h : T ∈ s.image (fun x => x.1)) : blockMap s T ≠ [] := by
  obtain ⟨x, hx, hx1⟩ := Finset.mem_image.1 h
  unfold blockMap
  intro hnil
  rw [List.map_eq_nil_iff] at hnil
  exact sort_ne_nil_of_mem
    (Finset.mem_image.2 ⟨x, Finset.mem_filter.2 ⟨hx, hx1⟩, rfl⟩) hnil

theorem shapeList_ne_nil {s : Finset (String × String)} {T : String}
    (h : T ∈ s.image (fun x => x.1)) :
    ((s.filter fun x => x.1 = T).image fun x => x.2).sort (· ≤ ·) ≠ [] := by
  obtain ⟨x, hx, hx1⟩ := Finset.mem_image.1 h
  exact sort_ne_nil_of_mem
    (Finset.mem_image.2 ⟨x, Finset.mem_filter.2 ⟨hx, hx1⟩, rfl⟩)

/-! The claim theorems. -/

/-- C5: the value classifier `type_name` is a total, deterministic,
side-effect-free Lean function on decoded JSON values; it returns one of
the seven fixed labels for every well-formed JSON value, and a boolean is
classified `"bool"`, never `"int"` (the boolean constructor is disjoint
from the numeric ones, mirroring the source's bool-before-int precedence). -/
theorem c5_type_name_total :
    (∀ v : JSON, type_name v ∈
      (["null", "bool", "int", "float", "string", "array", "object"] : List String)) ∧
    (∀ b : Bool, type_name (JSON.bool b) = "bool" ∧ type_name (JSON.bool b) ≠ "int") := by
  constructor
  · intro v; cases v <;> simp [type_name]
  · intro b; exact ⟨rfl, by simp [type_name]⟩

/-- C6: the Entry Type of an ingested mapping is its `type` value when
that value is a string, the sentinel `"__no_type__"` when the field is
absent, and the Python string representation of the value otherwise. -/
theorem c6_entry_type_rule (kvs : List (String × JSON)) :
    (dictGet kvs "type" = none → entryTypeOf kvs = "__no_type__") ∧
    (∀ s, dictGet kvs "type" = some (JSON.str s) → entryTypeOf kvs = s) ∧
    (∀ v, dictGet kvs "type" = some v → (∀ s, v ≠ JSON.str s) →
      entryTypeOf kvs = pyStr v) := by
  refine ⟨?_, ?_, ?_⟩
  · intro h; simp [entryTypeOf, h]
  · intro s h; simp [entryTypeOf, h]
  · intro v h hns
    cases v with
    | str s => exact absurd rfl (hns s)
    | null => simp [entryTypeOf, h]
    | bool b' => simp [entryTypeOf, h]
    | int n => simp [entryTypeOf, h]
    | float r => simp [entryTypeOf, h]
    | arr l => simp [entryTypeOf, h]
    | obj o => simp [entryTypeOf, h]

/-- C6 witness: a record with a non-string `type` value `3` is grouped
under the string representation of `3`. -/
theorem c6_entry_type_rule_witness :
    dictGet [("type", JSON.int 3)] "type" = some (JSON.int 3) ∧
    (∀ s, JSON.int 3 ≠ JSON.str s) ∧
    entryTypeOf [("type", JSON.int 3)] = pyStr (JSON.int 3) :=
  ⟨rfl, fun _ h => JSON.noConfusion h,
    (c6_entry_type_rule [("type", JSON.int 3)]).2.2 (JSON.int 3) rfl
      (fun _ h => JSON.noConfusion h)⟩

/-- C7: ingesting a successfully decoded value that is not a key-value
mapping is a silent no-op: the whole aggregate — occurrence counts,
top-level fields, message fields, content shapes, content blocks — is
returned unchanged and no error is possible. -/
theorem c7_non_mapping_noop (a : Agg) (j : JSON) (h : ∀ kvs, j ≠ JSON.obj kvs) :
    ingest a j = a := by
  cases j with
  | obj kvs => exact absurd rfl (h kvs)
  | null => rfl
  | bool b' => rfl
  | int n => rfl
  | float r => rfl
  | str s => rfl
  | arr l => rfl

/-- C7 witness: the decoded line `5` is not a mapping and leaves the
empty aggregate untouched. -/
theorem c7_non_mapping_noop_witness :
    (∀ kvs, JSON.int 5 ≠ JSON.obj kvs) ∧ ingest Agg.empty (JSON.int 5) = Agg.empty :=
  ⟨fun _ h => JSON.noConfusion h,
    c7_non_mapping_noop Agg.empty (JSON.int 5) (fun _ h => JSON.noConfusion h)⟩

/-- C9: ingestion grows the aggregate monotonically: every (entry type,
field, label) triple of the top-level and message-field accumulators,
every content shape, every content-block entry, and every occurrence
count present before ingesting one more record is still present (resp. no
smaller) afterwards. -/
theorem c9_ingest_monotone (a : Agg) (j : JSON) :
    a.top ⊆ (ingest a j).top ∧ a.msgF ⊆ (ingest a j).msgF ∧
    a.shape ⊆ (ingest a j).shape ∧ a.block ⊆ (ingest a j).block ∧
    ∀ T, a.occ T ≤ (ingest a j).occ T := by
  rw [ingest_as_merge]
  exact ⟨Finset.subset_union_left, Finset.subset_union_left,
    Finset.subset_union_left, Finset.subset_union_left,
    fun T => Nat.le_add_right _ _⟩

/-- C1: splitting a corpus into two partitions (in any interleaving),
aggregating each separately and merging the partial aggregates key-wise
yields the same final report as aggregating the whole corpus at once, and
the merge is commutative and associative, so partial aggregates from any
partitioning combine in any order without affecting the final report. -/
theorem c1_partition_merge_report :
    (∀ (c xs ys : List JSON), c.Perm (xs ++ ys) →
      buildReport (aggregate c)
        = buildReport ((aggregate xs).merge (aggregate ys))) ∧
    (∀ a b : Agg, a.merge b = b.merge a) ∧
    (∀ a b d : Agg, (a.merge b).merge d = a.merge (b.merge d)) := by
  refine ⟨?_, merge_comm_thm, merge_assoc_thm⟩
  intro c xs ys h
  rw [aggregate_perm h, aggregate_append]

/-- C1 witness: a two-record corpus split into its two singleton
partitions, combined in swapped order. -/
theorem c1_partition_merge_report_witness :
    ([JSON.obj [("type", JSON.str "a")], JSON.int 1]).Perm
        ([JSON.int 1] ++ [JSON.obj [("type", JSON.str "a")]]) ∧
    buildReport (aggregate [JSON.obj [("type", JSON.str "a")], JSON.int 1])
      = buildReport ((aggregate [JSON.int 1]).merge
          (aggregate [JSON.obj [("type", JSON.str "a")]])) :=
  ⟨List.Perm.swap (JSON.int 1) (JSON.obj [("type", JSON.str "a")]) [],
    c1_partition_merge_report.1 _ _ _
      (List.Perm.swap (JSON.int 1) (JSON.obj [("type", JSON.str "a")]) [])⟩

/-- C2: the report is a pure function of the ingested record sequence —
two runs over identical input serialize to byte-identical output — and
every emitted entry-type key, field name and block-type name is in
lexicographically sorted order with every label/shape set rendered as a
sorted, deduplicated sequence. -/
theorem c2_deterministic_sorted_output :
    (∀ c₁ c₂ : List JSON, c₁ = c₂ →
      serReport (buildReport (aggregate c₁))
        = serReport (buildReport (aggregate c₂))) ∧
    (∀ c : List JSON, ReportSorted (buildReport (aggregate c))) := by
  constructor
  · intro c₁ c₂ h; rw [h]
  · intro c
    refine ⟨sortedNodup_sort _, ?_, ?_⟩
    · rw [buildReport_keys]; exact sortedNodup_sort _
    · intro p hp
      unfold buildReport at hp
      simp only [List.mem_map] at hp
      obtain ⟨T, _, rfl⟩ := hp
      exact mkEntry_sorted _ T

/-- C2 witness: the determinism instance at a concrete one-record corpus. -/
theorem c2_deterministic_sorted_output_witness :
    ([JSON.obj [("type", JSON.str "a")]] = [JSON.obj [("type", JSON.str "a")]]) ∧
    serReport (buildReport (aggregate [JSON.obj [("type", JSON.str "a")]]))
      = serReport (buildReport (aggregate [JSON.obj [("type", JSON.str "a")]])) ∧
    ReportSorted (buildReport (aggregate [JSON.obj [("type", JSON.str "a")]])) :=
  ⟨rfl, c2_deterministic_sorted_output.1 _ _ rfl,
    c2_deterministic_sorted_output.2 _⟩

/-- C3 counterexample: an empty-mapping record is classified under
`"__no_type__"` — its occurrence count becomes 1 — yet the report lists no
entry type at all, because both the metadata list and the per-type loop
iterate the keys of the top-level field accumulator, which a record with
no fields never touches. -/
theorem c3_empty_record_counterexample :
    (aggregate [JSON.obj []]).occ "__no_type__" = 1 ∧
    List.countP (fun j => recordEntryType j == some "__no_type__")
      [JSON.obj []] = 1 ∧
    (buildReport (aggregate [JSON.obj []])).unique_entry_types = [] ∧
    (buildReport (aggregate [JSON.obj []])).entry_types = [] := by
  have htop : (aggregate [JSON.obj []]).top = ∅ := by decide
  refine ⟨by decide, by decide, ?_, ?_⟩
  · unfold buildReport
    rw [htop]
    simp
  · unfold buildReport
    rw [htop]
    simp

/-- C3 (amended): every Entry Type under which at least one record with
at least one top-level field was classified is listed in the metadata and
has a per-type section whose occurrence count equals the number of
records classified under it — empty-mapping records of that type are
included in the count, but an Entry Type observed only through
empty-mapping records is absent from the report. -/
theorem c3_reported_entry_types (c : List JSON) (T : String)
    (h : ∃ kvs, JSON.obj kvs ∈ c ∧ entryTypeOf kvs = T ∧ kvs ≠ []) :
    T ∈ (buildReport (aggregate c)).unique_entry_types ∧
    ∃ e, (T, e) ∈ (buildReport (aggregate c)).entry_types ∧
      e.occurrences = c.countP (fun j => recordEntryType j == some T) := by
  obtain ⟨kvs, hmem, hT, hne⟩ := h
  have hkey : T ∈ (aggregate c).top.image (fun x => x.1) := by
    rw [← hT]
    exact top_key_of_record hmem hne
  refine ⟨?_, mkEntry (aggregate c) T, entry_types_mem _ _ hkey, ?_⟩
  · unfold buildReport
    exact (Finset.mem_sort _).2 hkey
  · show (mkEntry (aggregate c) T).occurrences = _
    unfold mkEntry
    exact occ_eq_countP c T

/-- C3 witness: a one-record corpus whose record carries a `type` field. -/
theorem c3_reported_entry_types_witness :
    (∃ kvs, JSON.obj kvs ∈ [JSON.obj [("type", JSON.str "a")]] ∧
      entryTypeOf kvs = "a" ∧ kvs ≠ []) ∧
    ("a" ∈ (buildReport
        (aggregate [JSON.obj [("type", JSON.str "a")]])).unique_entry_types ∧
      ∃ e, ("a", e) ∈ (buildReport
          (aggregate [JSON.obj [("type", JSON.str "a")]])).entry_types ∧
        e.occurrences = List.countP (fun j => recordEntryType j == some "a")
          [JSON.obj [("type", JSON.str "a")]]) :=
  ⟨⟨[("type", JSON.str "a")], List.mem_cons_self _ _, rfl, by simp⟩,
    c3_reported_entry_types [JSON.obj [("type", JSON.str "a")]] "a"
      ⟨[("type", JSON.str "a")], List.mem_cons_self _ _, rfl, by simp⟩⟩

/-- C4 counterexample: in `{"type": "a", "message": {"content": null}}`
the `content` key is present with a value (JSON `null`) that is neither
text nor a sequence, yet no content shape is recorded at all — the claim's
"`for example … null`" case is exactly the one the code's
`elif content is not None` excludes. -/
theorem c4_null_content_counterexample :
    dictGet [("content", JSON.null)] "content" = some JSON.null ∧
    (aggregate [JSON.obj [("type", JSON.str "a"),
      ("message", JSON.obj [("content", JSON.null)])]]).shape = ∅ :=
  ⟨rfl, by decide⟩

/-- C4 (amended): for a mapping record whose `message` value is a mapping
whose `content` value is present but neither text, nor a sequence, *nor
`null`*, the classified type label of that value is recorded as a content
shape for the record's Entry Type and the content-block accumulator is
untouched; a `null` content value is indistinguishable from an absent one
and records no shape. -/
theorem c4_content_shape_rule (a : Agg) (kvs mkvs : List (String × JSON)) (v : JSON)
    (hmsg : dictGet kvs "message" = some (JSON.obj mkvs))
    (hcont : dictGet mkvs "content" = some v)
    (hstr : ∀ s, v ≠ JSON.str s) (harr : ∀ l, v ≠ JSON.arr l)
    (hnull : v ≠ JSON.null) :
    (ingest a (JSON.obj kvs)).shape
      = a.shape ∪ {(entryTypeOf kvs, type_name v)} ∧
    (ingest a (JSON.obj kvs)).block = a.block := by
  simp only [ingest, hmsg, messageStep, hcont, Option.getD_some]
  cases v with
  | null => exact absurd rfl hnull
  | str s => exact absurd rfl (hstr s)
  | arr l => exact absurd rfl (harr l)
  | bool b' => exact ⟨rfl, rfl⟩
  | int n => exact ⟨rfl, rfl⟩
  | float r => exact ⟨rfl, rfl⟩
  | obj okvs => exact ⟨rfl, rfl⟩

/-- C4 witness: a record whose `message.content` is the number `7`
records the shape `"int"` and leaves the block accumulator empty. -/
theorem c4_content_shape_rule_witness :
    dictGet [("type", JSON.str "a"), ("message", JSON.obj [("content", JSON.int 7)])]
        "message" = some (JSON.obj [("content", JSON.int 7)]) ∧
    dictGet [("content", JSON.int 7)] "content" = some (JSON.int 7) ∧
    (∀ s, JSON.int 7 ≠ JSON.str s) ∧ (∀ l, JSON.int 7 ≠ JSON.arr l) ∧
    JSON.int 7 ≠ JSON.null ∧
    (ingest Agg.empty (JSON.obj [("type", JSON.str "a"),
        ("message", JSON.obj [("content", JSON.int 7)])])).shape
      = Agg.empty.shape ∪
        {(entryTypeOf [("type", JSON.str "a"),
          ("message", JSON.obj [("content", JSON.int 7)])], type_name (JSON.int 7))} ∧
    (ingest Agg.empty (JSON.obj [("type", JSON.str "a"),
        ("message", JSON.obj [("content", JSON.int 7)])])).block = Agg.empty.block :=
  ⟨rfl, rfl, fun _ h => JSON.noConfusion h, fun _ h => JSON.noConfusion h,
    fun h => JSON.noConfusion h,
    c4_content_shape_rule Agg.empty _ _ (JSON.int 7) rfl rfl
      (fun _ h => JSON.noConfusion h) (fun _ h => JSON.noConfusion h)
      (fun h => JSON.noConfusion h)⟩

/-- C8: an Entry Type none of whose records paired it with a dict-valued
`message` has no message-field, content-shape, or content-block section in
its report entry; and any of these sections, when present on any entry,
is nonempty — sections appear only where data was observed, never as
empty placeholders. -/
theorem c8_sparse_sections (c : List JSON) (T : String)
    (h : ∀ j ∈ c, ∀ kvs mkvs, j = JSON.obj kvs →
      dictGet kvs "message" = some (JSON.obj mkvs) → entryTypeOf kvs ≠ T) :
    (∀ e, (T, e) ∈ (buildReport (aggregate c)).entry_types →
      e.message_fields = none ∧ e.content_shapes = none ∧
        e.content_block_types = none) ∧
    (∀ T' e, (T', e) ∈ (buildReport (aggregate c)).entry_types →
      (∀ fm, e.message_fields = some fm → fm ≠ []) ∧
      (∀ l, e.content_shapes = some l → l ≠ []) ∧
      (∀ bm, e.content_block_types = some bm → bm ≠ [])) := by
  obtain ⟨hM, hS, hB⟩ := aggregate_no_msg_sections c T h
  constructor
  · intro e he
    obtain ⟨-, rfl⟩ := mem_entry_types he
    have hMi : T ∉ (aggregate c).msgF.image (fun x => x.1) := by
      intro hT
      obtain ⟨x, hx, hx1⟩ := Finset.mem_image.1 hT
      exact hM x hx hx1
    have hSi : T ∉ (aggregate c).shape.image (fun x => x.1) := by
      intro hT
      obtain ⟨x, hx, hx1⟩ := Finset.mem_image.1 hT
      exact hS x hx hx1
    have hBi : T ∉ (aggregate c).block.image (fun x => x.1) := by
      intro hT
      obtain ⟨x, hx, hx1⟩ := Finset.mem_image.1 hT
      exact hB x hx hx1
    exact ⟨mkEntry_msg_neg _ _ hMi, mkEntry_shape_neg _ _ hSi,
      mkEntry_block_neg _ _ hBi⟩
  · intro T' e he
    obtain ⟨-, rfl⟩ := mem_entry_types he
    refine ⟨?_, ?_, ?_⟩
    · intro fm hfm
      by_cases hT : T' ∈ (aggregate c).msgF.image (fun x => x.1)
      · rw [mkEntry_msg_pos _ _ hT] at hfm
        cases hfm
        exact fieldMap_ne_nil hT
      · rw [mkEntry_msg_neg _ _ hT] at hfm
        cases hfm
    · intro l hl
      by_cases hT : T' ∈ (aggregate c).shape.image (fun x => x.1)
      · rw [mkEntry_shape_pos _ _ hT] at hl
        cases hl
        exact shapeList_ne_nil hT
      · rw [mkEntry_shape_neg _ _ hT] at hl
        cases hl
    · intro bm hbm
      by_cases hT : T' ∈ (aggregate c).block.image (fun x => x.1)
      · rw [mkEntry_block_pos _ _ hT] at hbm
        cases hbm
        exact blockMap_ne_nil hT
      · rw [mkEntry_block_neg _ _ hT] at hbm
        cases hbm

/-- C8 witness: a corpus whose single record has no `message` key at all;
its entry `"a"` has none of the three optional sections. -/
theorem c8_sparse_sections_witness :
    (∀ j ∈ [JSON.obj [("type", JSON.str "a")]], ∀ kvs mkvs, j = JSON.obj kvs →
      dictGet kvs "message" = some (JSON.obj mkvs) → entryTypeOf kvs ≠ "a") ∧
    (∀ e, ("a", e) ∈
        (buildReport (aggregate [JSON.obj [("type", JSON.str "a")]])).entry_types →
      e.message_fields = none ∧ e.content_shapes = none ∧
        e.content_block_types = none) := by
  have hyp : ∀ j ∈ [JSON.obj [("type", JSON.str "a")]], ∀ kvs mkvs,
      j = JSON.obj kvs → dictGet kvs "message" = some (JSON.obj mkvs) →
      entryTypeOf kvs ≠ "a" := by
    intro j hj kvs mkvs hkvs hm
    rcases List.mem_singleton.1 hj with rfl
    cases hkvs
    cases hm
  exact ⟨hyp,
    (c8_sparse_sections [JSON.obj [("type", JSON.str "a")]] "a" hyp).1⟩

/-- C10: every Entry Type key of the message-field, content-shape, or
content-block accumulator also keys the top-level field accumulator
(a record that triggers message processing necessarily contains the
`"message"` key), so the report loop, which iterates the top-level keys,
never drops observed message data: such an Entry Type is in the metadata
list and has a per-type report entry. -/
theorem c10_section_keys_covered (c : List JSON) (T : String)
    (h : T ∈ (aggregate c).msgF.image (fun x => x.1) ∨
      T ∈ (aggregate c).shape.image (fun x => x.1) ∨
      T ∈ (aggregate c).block.image (fun x => x.1)) :
    T ∈ (aggregate c).top.image (fun x => x.1) ∧
    T ∈ (buildReport (aggregate c)).unique_entry_types ∧
    ∃ e, (T, e) ∈ (buildReport (aggregate c)).entry_types := by
  obtain ⟨hM, hS, hB⟩ := keysCovered_aggregate c
  have hkey : T ∈ (aggregate c).top.image (fun x => x.1) := by
    rcases h with h | h | h
    · obtain ⟨x, hx, hx1⟩ := Finset.mem_image.1 h
      obtain ⟨y, hy, hy1⟩ := hM x hx
      exact Finset.mem_image.2 ⟨y, hy, by rw [hy1, hx1]⟩
    · obtain ⟨x, hx, hx1⟩ := Finset.mem_image.1 h
      obtain ⟨y, hy, hy1⟩ := hS x hx
      exact Finset.mem_image.2 ⟨y, hy, by rw [hy1, hx1]⟩
    · obtain ⟨x, hx, hx1⟩ := Finset.mem_image.1 h
      obtain ⟨y, hy, hy1⟩ := hB x hx
      exact Finset.mem_image.2 ⟨y, hy, by rw [hy1, hx1]⟩
  exact ⟨hkey, by unfold buildReport; exact (Finset.mem_sort _).2 hkey,
    mkEntry (aggregate c) T, entry_types_mem _ _ hkey⟩

/-- C10 witness: a record with a dict `message` puts its entry type in
the message-field accumulator, and the type indeed keys the top-level
accumulator and appears in the report. -/
theorem c10_section_keys_covered_witness :
    ("a" ∈ (aggregate [JSON.obj [("type", JSON.str "a"),
        ("message", JSON.obj [("x", JSON.int 1)])]]).msgF.image (fun x => x.1) ∨
      "a" ∈ (aggregate [JSON.obj [("type", JSON.str "a"),
        ("message", JSON.obj [("x", JSON.int 1)])]]).shape.image (fun x => x.1) ∨
      "a" ∈ (aggregate [JSON.obj [("type", JSON.str "a"),
        ("message", JSON.obj [("x", JSON.int 1)])]]).block.image (fun x => x.1)) ∧
    ("a" ∈ (aggregate [JSON.obj [("type", JSON.str "a"),
        ("message", JSON.obj [("x", JSON.int 1)])]]).top.image (fun x => x.1) ∧
      "a" ∈ (buildReport (aggregate [JSON.obj [("type", JSON.str "a"),
        ("message", JSON.obj [("x", JSON.int 1)])]])).unique_entry_types ∧
      ∃ e, ("a", e) ∈ (buildReport (aggregate [JSON.obj [("type", JSON.str "a"),
        ("message", JSON.obj [("x", JSON.int 1)])]])).entry_types) :=
  ⟨Or.inl (by decide),
    c10_section_keys_covered _ "a" (Or.inl (by decide))⟩

end ScanJsonl
